import Mathlib

/-
Verification development for the Hexcells solver engine (hex_model.py, util.py).

The embedding conventions:
  * A cubic hex coordinate is a triple of integers.
  * Color.blue is the Mine state, Color.black the Safe state and
    Color.yellow the Unknown state, exactly as the source uses them.
  * Python dicts keyed by coordinates or by frozensets of coordinates are
    embedded as association lists in insertion order; dict assignment is
    the key-overwriting insert on such lists.
  * Python sets of emitted solutions are embedded as Finsets.
  * Fallible code paths (KeyError / IndexError) are embedded with Option.
-/

namespace Hexcells

/-- Cubic hex coordinate: the Python code represents it as a plain
tuple of three integers. -/
abbrev Coord : Type := Int × Int × Int

/-- The three cell colors of hex_model.Color.  The RGB payloads are
irrelevant to the solver logic and are not modelled. -/
inductive Color : Type where
  | blue
  | yellow
  | black
deriving DecidableEq, Repr

/-- One hexagon (hex_model.Hex): an optional clue value, the tri-state
contiguity marker parsed from the clue text, and the current color.
The image_section attribute is raw screenshot data used only by the
I/O plumbing and is not part of the solver state. -/
structure Hex : Type where
  value : Option Int
  is_contiguous : Option Bool
  color : Color
deriving DecidableEq, Repr

/-- Errors raised by hex_model.coordinate: TypeError when fewer than two
components are provided, ValueError when three are provided that do not
sum to zero. -/
inductive CoordError : Type where
  | typeError
  | valueError
deriving DecidableEq, Repr

/-- Embedding of hex_model.coordinate.  Each argument is Option Int, with
none standing for an omitted (None) argument. -/
def coordinate (x y z : Option Int) : Except CoordError Coord :=
  let nones : Nat := [x, y, z].countP Option.isNone
  if nones > 1 then
    Except.error CoordError.typeError
  else if nones = 1 then
    let final : Int := -(([x, y, z].filterMap id).sum)
    Except.ok (x.getD final, y.getD final, z.getD final)
  else if x.getD 0 + y.getD 0 + z.getD 0 ≠ 0 then
    Except.error CoordError.valueError
  else
    Except.ok (x.getD 0, y.getD 0, z.getD 0)

/-- C9: the coordinate constructor fails with a validation error whenever
fewer than two of x, y, z are given; given exactly two it returns the
triple completed with the third component so that x + y + z = 0; given all
three it fails with a validation error when they do not sum to zero and
otherwise returns them unchanged. -/
theorem C9_coordinate_validation :
    (∀ x y z : Option Int, 2 ≤ [x, y, z].countP Option.isNone →
        coordinate x y z = Except.error CoordError.typeError)
    ∧ (∀ a b : Int,
        (coordinate (some a) (some b) none = Except.ok (a, b, -(a + b))
          ∧ a + b + -(a + b) = 0)
        ∧ (coordinate (some a) none (some b) = Except.ok (a, -(a + b), b)
          ∧ a + -(a + b) + b = 0)
        ∧ (coordinate none (some a) (some b) = Except.ok (-(a + b), a, b)
          ∧ -(a + b) + a + b = 0))
    ∧ (∀ a b c : Int, a + b + c ≠ 0 →
        coordinate (some a) (some b) (some c) = Except.error CoordError.valueError)
    ∧ (∀ a b c : Int, a + b + c = 0 →
        coordinate (some a) (some b) (some c) = Except.ok (a, b, c)) := by
  refine ⟨?_, ?_, ?_, ?_⟩
  · intro x y z h
    rcases x with _ | a <;> rcases y with _ | b <;> rcases z with _ | c <;>
      simp [coordinate, List.countP, List.countP.go] at h ⊢
  · intro a b
    refine ⟨⟨?_, by ring⟩, ⟨?_, by ring⟩, ⟨?_, by ring⟩⟩ <;>
      simp [coordinate, List.countP, List.countP.go]
  · intro a b c h
    simp [coordinate, List.countP, List.countP.go, h]
  · intro a b c h
    simp [coordinate, List.countP, List.countP.go, h]

/-- Witness for C9 at concrete inputs: one component given, two given,
three given not summing to zero, three given summing to zero. -/
theorem C9_coordinate_validation_witness :
    coordinate none (some 1) none = Except.error CoordError.typeError
    ∧ (coordinate (some 1) (some 2) none = Except.ok (1, 2, -(1 + 2))
        ∧ (1 : Int) + 2 + -(1 + 2) = 0)
    ∧ coordinate (some 1) (some 1) (some 1) = Except.error CoordError.valueError
    ∧ coordinate (some 1) (some 2) (some (-3)) = Except.ok (1, 2, -3) :=
  ⟨C9_coordinate_validation.1 none (some 1) none (by decide),
   (C9_coordinate_validation.2.1 1 2).1,
   C9_coordinate_validation.2.2.1 1 1 1 (by decide),
   C9_coordinate_validation.2.2.2 1 2 (-3) (by decide)⟩

/-- A region fact of the region store: a frozenset of coordinates paired
with its remaining mine count (HexBoard._regions entries). -/
abbrev Region : Type := Finset Coord × Int

/-- Embedding of HexBoard._get_simplified_region.  The source reads cell
colors from self._board (the authoritative map, NOT the overlay-aware
self[coord] lookup), so this function takes the authoritative color view.
The loop over the unordered set - keep yellow cells, decrement the value
once per blue cell, skip black cells - is embedded as a filter plus a
cardinality count. -/
def getSimplifiedRegion (bc : Coord → Color) (hexes : Finset Coord) (value : Int) :
    Finset Coord × Int :=
  (hexes.filter (fun c => bc c = Color.yellow),
   value - ((hexes.filter (fun c => bc c = Color.blue)).card : Int))

/-- Key-membership test on an association list of regions
(Python: key in dict). -/
def hasKey (regs : List Region) (k : Finset Coord) : Bool :=
  regs.any (fun p => decide (p.1 = k))

/-- Dict assignment d[k] = v on the association-list embedding: overwrite
the value in place when the key is present, otherwise append. -/
def insertRegion (regs : List Region) (r : Region) : List Region :=
  if hasKey regs r.1 then regs.map (fun p => if p.1 = r.1 then r else p)
  else regs ++ [r]

/-- Embedding of HexBoard._identify_solved_regions.  For each stored
region the set is re-simplified against the authoritative colors; a
region whose size equals its value yields all its cells as blue (Mine),
a region with value 0 yields all its cells as black (Safe), and any
other region is carried over into the new region dict.  The solutions
set is a Python set, embedded as a Finset. -/
def identifySolvedRegions (bc : Coord → Color) (regions : List Region) :
    Finset (Coord × Color) × List Region :=
  regions.foldl
    (fun acc r =>
      let s := getSimplifiedRegion bc r.1 r.2
      if (s.1.card : Int) = s.2 then
        (acc.1 ∪ s.1.image (fun c => (c, Color.blue)), acc.2)
      else if s.2 = 0 then
        (acc.1 ∪ s.1.image (fun c => (c, Color.black)), acc.2)
      else
        (acc.1, insertRegion acc.2 s))
    (∅, [])

/-- The body of HexBoard._subdivide_overlapping_regions for one pair of
regions: the list of new dict entries it writes, in write order
(overlap, first exclusive remainder, second exclusive remainder), each
guarded by the key not being already known in self._regions. -/
def subdividePair (regions : List Region) (r1 r2 : Region) : List Region :=
  let overlap := r1.1 ∩ r2.1
  if overlap = ∅ then []
  else
    let e1 := r1.1 \ overlap
    let e2 := r2.1 \ overlap
    let omax : Int := min (min (overlap.card : Int) r2.2) r1.2
    let omin : Int := max (max (r2.2 - (e2.card : Int)) (r1.2 - (e1.card : Int))) 0
    if omin = omax then
      (if hasKey regions overlap then [] else [(overlap, omax)])
        ++ (if hasKey regions e1 then [] else [(e1, r1.2 - omax)])
        ++ (if hasKey regions e2 then [] else [(e2, r2.2 - omax)])
    else []

/-- itertools.combinations(l, 2), in iteration order. -/
def combinations2 {α : Type} : List α → List (α × α)
  | [] => []
  | a :: rest => rest.map (fun b => (a, b)) ++ combinations2 rest

/-- Embedding of HexBoard._subdivide_overlapping_regions: fold the
per-pair contributions into the new_regions dict in iteration order. -/
def subdivideOverlappingRegions (regions : List Region) : List Region :=
  (combinations2 regions).foldl
    (fun acc pr => (subdividePair regions pr.1 pr.2).foldl insertRegion acc) []

/-- C2: for a pair of stored regions, with omax = min(|overlap|, r2, r1)
and omin = max(r2 - |excl2|, r1 - |excl1|, 0), subdivision synthesizes
the three guarded facts exactly when omin = omax and the overlap is
nonempty, and nothing when omin < omax; on R1 = \x7bA,B,C,D\x7d with 3
remaining and R2 = \x7bC,D,E\x7d with 1 remaining it produces
(\x7bC,D\x7d,1), (\x7bA,B\x7d,2), (\x7bE\x7d,0). -/
theorem C2_subdivision_pinned_overlap :
    (∀ regions : List Region, ∀ r1 r2 : Region,
      (min (min (((r1.1 ∩ r2.1).card : Int)) r2.2) r1.2 ≠
          max (max (r2.2 - ((r2.1 \ (r1.1 ∩ r2.1)).card : Int))
                (r1.2 - ((r1.1 \ (r1.1 ∩ r2.1)).card : Int))) 0 →
        subdividePair regions r1 r2 = [])
      ∧ (r1.1 ∩ r2.1 = ∅ → subdividePair regions r1 r2 = [])
      ∧ (r1.1 ∩ r2.1 ≠ ∅ →
          min (min (((r1.1 ∩ r2.1).card : Int)) r2.2) r1.2 =
            max (max (r2.2 - ((r2.1 \ (r1.1 ∩ r2.1)).card : Int))
                  (r1.2 - ((r1.1 \ (r1.1 ∩ r2.1)).card : Int))) 0 →
          subdividePair regions r1 r2 =
            (if hasKey regions (r1.1 ∩ r2.1) then []
              else [(r1.1 ∩ r2.1, min (min (((r1.1 ∩ r2.1).card : Int)) r2.2) r1.2)])
            ++ (if hasKey regions (r1.1 \ (r1.1 ∩ r2.1)) then []
              else [(r1.1 \ (r1.1 ∩ r2.1),
                     r1.2 - min (min (((r1.1 ∩ r2.1).card : Int)) r2.2) r1.2)])
            ++ (if hasKey regions (r2.1 \ (r1.1 ∩ r2.1)) then []
              else [(r2.1 \ (r1.1 ∩ r2.1),
                     r2.2 - min (min (((r1.1 ∩ r2.1).card : Int)) r2.2) r1.2)])))
    ∧ subdivideOverlappingRegions
        [({(0, 0, 0), (1, -1, 0), (0, 1, -1), (1, 0, -1)}, 3),
         ({(0, 1, -1), (1, 0, -1), (2, -1, -1)}, 1)] =
      [({(0, 1, -1), (1, 0, -1)}, 1),
       ({(0, 0, 0), (1, -1, 0)}, 2),
       ({(2, -1, -1)}, 0)] := by
  constructor
  · intro regions r1 r2
    refine ⟨?_, ?_, ?_⟩
    · intro h
      by_cases ho : r1.1 ∩ r2.1 = ∅
      · simp [subdividePair, ho]
      · simp only [subdividePair, if_neg ho]
        rw [if_neg]
        omega
    · intro ho
      simp [subdividePair, ho]
    · intro ho h
      simp only [subdividePair, if_neg ho]
      rw [if_pos]
      omega
  · decide

/-- Witness companion for C2, applying the pair characterization at the
concrete pair from the claim. -/
theorem C2_subdivision_pinned_overlap_witness :
    subdividePair
        [({(0, 0, 0), (1, -1, 0), (0, 1, -1), (1, 0, -1)}, 3),
         ({(0, 1, -1), (1, 0, -1), (2, -1, -1)}, 1)]
        ({(0, 0, 0), (1, -1, 0), (0, 1, -1), (1, 0, -1)}, 3)
        ({(0, 1, -1), (1, 0, -1), (2, -1, -1)}, 1) =
      [({(0, 1, -1), (1, 0, -1)}, 1),
       ({(0, 0, 0), (1, -1, 0)}, 2),
       ({(2, -1, -1)}, 0)] := by
  have h := (C2_subdivision_pinned_overlap.1
      [({(0, 0, 0), (1, -1, 0), (0, 1, -1), (1, 0, -1)}, 3),
       ({(0, 1, -1), (1, 0, -1), (2, -1, -1)}, 1)]
      ({(0, 0, 0), (1, -1, 0), (0, 1, -1), (1, 0, -1)}, 3)
      ({(0, 1, -1), (1, 0, -1), (2, -1, -1)}, 1)).2.2 (by decide) (by decide)
  rw [h]
  decide

/-- Authoritative colors (HexBoard._board) for the C1 failing input: the
two cells (0,0,0) and (1,-1,0) are both still yellow there. -/
def c1AuthColors : Coord → Color := fun _ => Color.yellow

/-- Overlay-aware colors (HexBoard.__getitem__, which consults
HexBoard._clicked first) for the same input: (0,0,0) has been clicked
blue earlier in the current pass, (1,-1,0) is still yellow. -/
def c1OverlayColors : Coord → Color :=
  fun c => if c = ((0 : Int), (0 : Int), (0 : Int)) then Color.blue else Color.yellow

/-- C1 failing input, evaluated: _identify_solved_regions re-simplifies
the region \x7b(0,0,0),(1,-1,0)\x7d with remaining 1 against the
authoritative map only, so it emits nothing and keeps the region
unchanged, although the overlay-aware re-simplification the claim
describes gives the set \x7b(1,-1,0)\x7d with remaining 0, for which the
claim requires a Safe deduction on (1,-1,0). -/
theorem C1_resolution_ignores_overlay :
    identifySolvedRegions c1AuthColors [({(0, 0, 0), (1, -1, 0)}, 1)] =
      (∅, [({(0, 0, 0), (1, -1, 0)}, 1)])
    ∧ getSimplifiedRegion c1OverlayColors {(0, 0, 0), (1, -1, 0)} 1 =
      ({(1, -1, 0)}, 0) := by
  decide

/-- Inclusive integer range a..b as a list (Python range(a, b + 1)). -/
def intRange (a b : Int) : List Int :=
  (List.range (b - a + 1).toNat).map (fun i => a + (i : Int))

/-- Embedding of hex_model.generate_hex_circle: all coordinates of the
hex disc of the given radius around the origin (the origin included). -/
def generateHexCircle (distance : Int) : List Coord :=
  (intRange (-distance) distance).flatMap
    (fun x =>
      (intRange (max (-distance) (-distance - x)) (min distance (distance - x))).map
        (fun y => (x, y, -x - y)))

/-- Authoritative dict lookup self._board.get(coord) on the
association-list embedding of the board. -/
def alookup {β : Type} (l : List (Coord × β)) (c : Coord) : Option β :=
  (l.find? (fun p => decide (p.1 = c))).map Prod.snd

/-- The authoritative color view self._board[coord].color.  Coordinates
outside the board never reach this view in the embedded code paths; they
get the junk value yellow. -/
def boardColors (board : List (Coord × Hex)) : Coord → Color :=
  fun c => ((alookup board c).map Hex.color).getD Color.yellow

/-- Embedding of HexBoard._neighbors: the set of coordinates within the
given distance of the given coordinate (itself excluded, via the
any(delta) test) that are present in the authoritative map. -/
def hexNeighbors (board : List (Coord × Hex)) (c : Coord) (distance : Int) : Finset Coord :=
  ((((generateHexCircle distance).filter
        (fun d => decide (d ≠ ((0 : Int), (0 : Int), (0 : Int))))).map
      (fun d => (c.1 + d.1, c.2.1 + d.2.1, c.2.2 + d.2.2))).filter
    (fun n => (alookup board n).isSome)).toFinset

/-- The region a clue cell ch with clue value v contributes in
HexBoard._populate_regions: the simplified region of its neighborhood,
taken at distance 1 when the clue cell is black and at distance 2
otherwise (the code tests color == Color.black, not non-yellow). -/
def clueRegion (board : List (Coord × Hex)) (ch : Coord × Hex) (v : Int) : Region :=
  getSimplifiedRegion (boardColors board)
    (hexNeighbors board ch.1 (if ch.2.color = Color.black then 1 else 2)) v

/-- One iteration of the _populate_regions loop: cells without a clue
value are skipped, every other cell writes its simplified region into the
region dict. -/
def populateStep (board : List (Coord × Hex)) (regs : List Region) (ch : Coord × Hex) :
    List Region :=
  match ch.2.value with
  | none => regs
  | some v => insertRegion regs (clueRegion board ch v)

/-- Embedding of the region half of HexBoard._populate_regions: one pass
over the authoritative map in insertion order; every cell carrying a clue
value contributes its clueRegion, keyed by the unknown-cell set (dict
assignment, so identical keys coalesce).  The contiguous-constraint half
of the same loop is embedded separately via ringConstraint below. -/
def populateRegions (board : List (Coord × Hex)) : List Region :=
  board.foldl (populateStep board) []

theorem hasKey_iff (regs : List Region) (k : Finset Coord) :
    hasKey regs k = true ↔ ∃ p ∈ regs, p.1 = k := by
  simp [hasKey]

theorem insertRegion_mem (regs : List Region) (r p : Region) :
    p ∈ insertRegion regs r → p ∈ regs ∨ p = r := by
  intro hp
  unfold insertRegion at hp
  split at hp
  · rcases List.mem_map.mp hp with ⟨q, hq, hqe⟩
    by_cases hqr : q.1 = r.1
    · simp only [if_pos hqr] at hqe
      exact Or.inr hqe.symm
    · simp only [if_neg hqr] at hqe
      exact Or.inl (hqe ▸ hq)
  · rcases List.mem_append.mp hp with h | h
    · exact Or.inl h
    · exact Or.inr (List.mem_singleton.mp h)

theorem insertRegion_hasKey (regs : List Region) (r : Region) (k : Finset Coord) :
    hasKey (insertRegion regs r) k = true ↔ (hasKey regs k = true ∨ r.1 = k) := by
  unfold insertRegion
  by_cases hk : hasKey regs r.1 = true
  · rw [if_pos hk, hasKey_iff, hasKey_iff]
    constructor
    · rintro ⟨p, hp, hpk⟩
      rcases List.mem_map.mp hp with ⟨q, hq, rfl⟩
      by_cases hqr : q.1 = r.1
      · right
        simpa [if_pos hqr] using hpk
      · left
        exact ⟨q, hq, by simpa [if_neg hqr] using hpk⟩
    · rintro (⟨p, hp, hpk⟩ | hrk)
      · refine ⟨if p.1 = r.1 then r else p, List.mem_map_of_mem _ hp, ?_⟩
        by_cases hpr : p.1 = r.1
        · rw [if_pos hpr, ← hpr]
          exact hpk
        · rw [if_neg hpr]
          exact hpk
      · rcases (hasKey_iff regs r.1).mp hk with ⟨q, hq, hqr⟩
        exact ⟨if q.1 = r.1 then r else q, List.mem_map_of_mem _ hq, by rw [if_pos hqr]; exact hrk⟩
  · rw [if_neg hk, hasKey_iff, hasKey_iff]
    constructor
    · rintro ⟨p, hp, hpk⟩
      rcases List.mem_append.mp hp with h | h
      · exact Or.inl ⟨p, h, hpk⟩
      · right
        rw [List.mem_singleton] at h
        exact h ▸ hpk
    · rintro (⟨p, hp, hpk⟩ | hrk)
      · exact ⟨p, List.mem_append_left _ hp, hpk⟩
      · exact ⟨r, List.mem_append_right _ (List.mem_singleton.mpr rfl), hrk⟩

theorem insertRegion_keys_pairwise (regs : List Region) (r : Region)
    (h : regs.Pairwise (fun p q => p.1 ≠ q.1)) :
    (insertRegion regs r).Pairwise (fun p q => p.1 ≠ q.1) := by
  unfold insertRegion
  by_cases hk : hasKey regs r.1 = true
  · rw [if_pos hk]
    refine List.pairwise_map.mpr (h.imp ?_)
    intro a b hab
    by_cases ha : a.1 = r.1
    · by_cases hb : b.1 = r.1
      · exact absurd (ha.trans hb.symm) hab
      · simp only [if_pos ha, if_neg hb]
        exact fun hc => hab (ha.trans hc)
    · by_cases hb : b.1 = r.1
      · simp only [if_neg ha, if_pos hb]
        exact ha
      · simp only [if_neg ha, if_neg hb]
        exact hab
  · rw [if_neg hk]
    refine List.pairwise_append.mpr ⟨h, List.pairwise_singleton _ _, ?_⟩
    intro p hp q hq
    rw [List.mem_singleton] at hq
    subst hq
    intro hpr
    exact hk ((hasKey_iff regs _).mpr ⟨p, hp, hpr⟩)

theorem populate_fold_hasKey_mono (board : List (Coord × Hex)) (l : List (Coord × Hex)) :
    ∀ (acc : List Region) (k : Finset Coord),
      hasKey acc k = true → hasKey (l.foldl (populateStep board) acc) k = true := by
  induction l with
  | nil =>
    intro acc k h
    simpa using h
  | cons ch rest ih =>
    intro acc k h
    rw [List.foldl_cons]
    refine ih _ k ?_
    unfold populateStep
    cases hv : ch.2.value with
    | none => simpa using h
    | some v => exact (insertRegion_hasKey _ _ _).mpr (Or.inl h)

theorem populate_fold_clue_hasKey (board : List (Coord × Hex)) (l : List (Coord × Hex)) :
    ∀ (acc : List Region), ∀ ch ∈ l, ∀ v : Int, ch.2.value = some v →
      hasKey (l.foldl (populateStep board) acc) (clueRegion board ch v).1 = true := by
  induction l with
  | nil =>
    intro acc ch hch
    cases hch
  | cons a rest ih =>
    intro acc ch hch v hv
    rw [List.foldl_cons]
    rcases List.mem_cons.mp hch with rfl | hch
    · refine populate_fold_hasKey_mono board rest _ _ ?_
      unfold populateStep
      rw [hv]
      exact (insertRegion_hasKey _ _ _).mpr (Or.inr rfl)
    · exact ih _ ch hch v hv

theorem populate_fold_mem (board : List (Coord × Hex)) (l : List (Coord × Hex)) :
    ∀ (acc : List Region) (r : Region), r ∈ l.foldl (populateStep board) acc →
      r ∈ acc ∨ ∃ ch ∈ l, ∃ v : Int, ch.2.value = some v ∧ r = clueRegion board ch v := by
  induction l with
  | nil =>
    intro acc r h
    exact Or.inl (by simpa using h)
  | cons a rest ih =>
    intro acc r h
    rw [List.foldl_cons] at h
    rcases ih _ r h with hacc | ⟨ch, hch, v, hv, he⟩
    · unfold populateStep at hacc
      cases hva : a.2.value with
      | none =>
        rw [hva] at hacc
        exact Or.inl hacc
      | some v =>
        rw [hva] at hacc
        rcases insertRegion_mem _ _ _ hacc with h1 | h1
        · exact Or.inl h1
        · exact Or.inr ⟨a, List.mem_cons_self _ _, v, hva, h1⟩
    · exact Or.inr ⟨ch, List.mem_cons_of_mem _ hch, v, hv, he⟩

theorem populate_fold_pairwise (board : List (Coord × Hex)) (l : List (Coord × Hex)) :
    ∀ (acc : List Region), acc.Pairwise (fun p q => p.1 ≠ q.1) →
      (l.foldl (populateStep board) acc).Pairwise (fun p q => p.1 ≠ q.1) := by
  induction l with
  | nil =>
    intro acc h
    simpa using h
  | cons a rest ih =>
    intro acc h
    rw [List.foldl_cons]
    refine ih _ ?_
    unfold populateStep
    cases hva : a.2.value with
    | none => simpa using h
    | some v => exact insertRegion_keys_pairwise _ _ h

/-- C6 counterexample input: a blue (Mine) clue cell with value 1 at the
origin, a yellow cell at distance 1 and a yellow cell at distance 2. -/
def c6Board : List (Coord × Hex) :=
  [(((0 : Int), (0 : Int), (0 : Int)), ⟨some 1, none, Color.blue⟩),
   (((1 : Int), (-1 : Int), (0 : Int)), ⟨none, none, Color.yellow⟩),
   (((2 : Int), (-2 : Int), (0 : Int)), ⟨none, none, Color.yellow⟩)]

/-- C6 counterexample: the claim says a non-Unknown clue cell (revealed,
whether Safe-revealed or Mine) takes its neighborhood at distance 1, but
the code tests color == black only, so the blue clue cell of c6Board gets
the distance-2 neighborhood: the stored region set contains the
distance-2 cell (2,-2,0) and differs from the unknown set of the
distance-1 neighborhood. -/
theorem C6_blue_clue_gets_distance_two :
    populateRegions c6Board = [({(1, -1, 0), (2, -2, 0)}, 1)]
    ∧ (getSimplifiedRegion (boardColors c6Board)
        (hexNeighbors c6Board ((0 : Int), (0 : Int), (0 : Int)) 1) 1).1 = {(1, -1, 0)}
    ∧ ({((1 : Int), (-1 : Int), (0 : Int)), ((2 : Int), (-2 : Int), (0 : Int))} : Finset Coord)
      ≠ {((1 : Int), (-1 : Int), (0 : Int))} := by
  refine ⟨by decide, by decide, by decide⟩

/-- C6 amended: region derivation walks the authoritative map once; every
clue cell contributes exactly its clueRegion - the unknown cells of its
neighborhood taken at distance 1 when the clue cell is black
(Safe-revealed) and at distance 2 otherwise (Unknown or Mine), with
remaining count the clue value minus the count of already-blue
neighborhood cells - every stored region arises from some clue cell this
way, and regions with an identical unknown-set coalesce, the stored keys
being pairwise distinct. -/
theorem C6_populate_regions_amended (board : List (Coord × Hex)) :
    (∀ ch ∈ board, ∀ v : Int, ch.2.value = some v →
        hasKey (populateRegions board) (clueRegion board ch v).1 = true)
    ∧ (∀ r ∈ populateRegions board,
        ∃ ch ∈ board, ∃ v : Int, ch.2.value = some v ∧ r = clueRegion board ch v)
    ∧ (populateRegions board).Pairwise (fun p q => p.1 ≠ q.1) := by
  refine ⟨?_, ?_, ?_⟩
  · intro ch hch v hv
    exact populate_fold_clue_hasKey board board [] ch hch v hv
  · intro r hr
    rcases populate_fold_mem board board [] r hr with h | h
    · cases h
    · exact h
  · exact populate_fold_pairwise board board [] (List.Pairwise.nil)

/-- Witness for the amended C6 on the concrete board c6Board: the blue
clue cell at the origin has its clueRegion key stored, and the single
stored region is that clue cell's clueRegion. -/
theorem C6_populate_regions_amended_witness :
    hasKey (populateRegions c6Board)
      (clueRegion c6Board (((0 : Int), (0 : Int), (0 : Int)),
        ⟨some 1, none, Color.blue⟩) 1).1 = true :=
  (C6_populate_regions_amended c6Board).1
    (((0 : Int), (0 : Int), (0 : Int)), ⟨some 1, none, Color.blue⟩)
    (List.mem_cons_self _ _) 1 rfl

/-- The state of an AbstractContiguousConstraint: the ordered list of
contiguous sections (_contiguous_hexes), the _cycle flag, and the
required value. -/
structure ContiguousState : Type where
  sections : List (List Coord)
  cycle : Bool
  value : Nat
deriving DecidableEq, Repr

/-- The loop of util.split_iterable: sec is the running section
accumulator; an element satisfying the predicate is discarded and flushes
the nonempty accumulator. -/
def splitAux {α : Type} (p : α → Bool) (sec : List α) : List α → List (List α)
  | [] => if sec.isEmpty then [] else [sec]
  | a :: rest =>
    if p a then
      if sec.isEmpty then splitAux p [] rest else sec :: splitAux p [] rest
    else splitAux p (sec ++ [a]) rest

/-- Embedding of util.split_iterable: split a list into the maximal runs
of elements not satisfying the predicate; elements split upon are
discarded and no empty sublist is produced. -/
def splitIterable {α : Type} (p : α → Bool) (l : List α) : List (List α) :=
  splitAux p [] l

/-- The predicate of AbstractContiguousConstraint._generate_sections: a
coordinate is a barrier when it is missing from the board or its cell is
black (Safe). -/
def isBarrier (board : List (Coord × Hex)) (c : Coord) : Bool :=
  match alookup board c with
  | none => true
  | some h => decide (h.color = Color.black)

/-- The delta rotation of hex_model._ordered_neighbors:
(dx, dy, dz) becomes (-dy, -dz, -dx). -/
def rotateDelta (d : Coord) : Coord := (-d.2.1, -d.2.2, -d.1)

/-- Embedding of hex_model._ordered_neighbors: the six neighbors of a
coordinate in adjacent rotational order, generated by rotating the delta
(1, 0, -1) six times. -/
def orderedNeighbors (c : Coord) : List Coord :=
  ((List.range 6).foldl
    (fun acc _ =>
      (acc.1 ++ [(c.1 + acc.2.1, c.2.1 + acc.2.2.1, c.2.2 + acc.2.2.2)], rotateDelta acc.2))
    ([], ((1 : Int), (0 : Int), (-1 : Int)))).1

/-- Embedding of AbstractContiguousConstraint._refactor_cycle.  When the
guard fires Python pops the final section and glues it in front of the
first one, clearing the flag.  The fallback branch of the match is
Python's IndexError on popping from an empty list; it is unreachable from
ring construction and from refreshSections, where a set cycle flag forces
a nonempty section list. -/
def refactorCycle (s : ContiguousState) : ContiguousState :=
  if s.sections.length ≠ 1 ∧ s.cycle = true then
    match s.sections.getLast?, s.sections.dropLast with
    | some endSec, first :: rest => ⟨(endSec ++ first) :: rest, false, s.value⟩
    | _, _ => s
  else s

/-- The raw cycle expression of AbstractContiguousConstraint.ring:
bool(sections and sections[0][0] == neighbors[0] and
sections[-1][-1] == neighbors[-1]).  The fallback arm covers the falsy
empty-sections case; the neighbor list itself always has six entries. -/
def rawRingCycle (sections : List (List Coord)) (neighbors : List Coord) : Bool :=
  match sections.head?.bind List.head?, (sections.getLast?).bind List.getLast?,
      neighbors.head?, neighbors.getLast? with
  | some a, some b, some a0, some b0 => decide (a = a0) && decide (b = b0)
  | _, _, _, _ => false

/-- Embedding of AbstractContiguousConstraint.ring: split the six ordered
neighbors of the center into sections on the barrier predicate, compute
the raw cycle flag, then refactor (the constructor calls
_refactor_cycle).  The dynamic choice between the Contiguous and
NonContiguous subclass is a dispatch concern outside this state. -/
def ringConstraint (board : List (Coord × Hex)) (center : Coord) (value : Nat) :
    ContiguousState :=
  refactorCycle
    ⟨splitIterable (isBarrier board) (orderedNeighbors center),
     rawRingCycle (splitIterable (isBarrier board) (orderedNeighbors center))
       (orderedNeighbors center),
     value⟩

/-- Embedding of AbstractContiguousConstraint._refresh_sections, against
an arbitrary barrier predicate bar (isBarrier of the overlay-aware board
at refresh time).  The Option result models the IndexError paths: reading
the first or last cell of an empty section list, and re-reading them for
the cycle test when regeneration left no section while the flag was
set. -/
def refreshSections (bar : Coord → Bool) (s : ContiguousState) : Option ContiguousState :=
  match s.sections.head?.bind List.head? with
  | none => none
  | some start =>
    match (s.sections.getLast?).bind List.getLast? with
    | none => none
    | some endc =>
      let newSecs := (s.sections.map (splitIterable bar)).flatten
      if s.cycle then
        match newSecs.head?.bind List.head? with
        | none => none
        | some st =>
          match (newSecs.getLast?).bind List.getLast? with
          | none => none
          | some en =>
            some (refactorCycle ⟨newSecs, decide (start = st) && decide (endc = en), s.value⟩)
      else some (refactorCycle ⟨newSecs, false, s.value⟩)

theorem splitAux_flatten {α : Type} (p : α → Bool) (l : List α) :
    ∀ sec : List α, (splitAux p sec l).flatten = sec ++ l.filter (fun a => !(p a)) := by
  induction l with
  | nil =>
    intro sec
    by_cases h : sec.isEmpty
    · simp [splitAux, h, List.isEmpty_iff.mp h]
    · simp [splitAux, h]
  | cons a rest ih =>
    intro sec
    by_cases hp : p a
    · by_cases h : sec.isEmpty
      · simp [splitAux, hp, h, ih, List.isEmpty_iff.mp h]
      · simp [splitAux, hp, h, ih]
    · simp [splitAux, hp, ih (sec ++ [a])]

theorem splitIterable_flatten {α : Type} (p : α → Bool) (l : List α) :
    (splitIterable p l).flatten = l.filter (fun a => !(p a)) := by
  simpa using splitAux_flatten p l []

theorem splitAux_infix {α : Type} (p : α → Bool) (l : List α) :
    ∀ sec : List α, ∀ s ∈ splitAux p sec l,
      (∃ t post, t ++ post = l ∧ s = sec ++ t) ∨ (∃ pre post, pre ++ s ++ post = l) := by
  induction l with
  | nil =>
    intro sec s hs
    by_cases h : sec.isEmpty
    · simp [splitAux, h] at hs
    · simp only [splitAux, h, if_false, Bool.false_eq_true, List.mem_singleton] at hs
      exact Or.inl ⟨[], [], rfl, by simp [hs]⟩
  | cons a rest ih =>
    intro sec s hs
    by_cases hp : p a
    · by_cases h : sec.isEmpty
      · simp only [splitAux, hp, if_true, h] at hs
        rcases ih [] s hs with ⟨t, post, hl, he⟩ | ⟨pre, post, hl⟩
        · exact Or.inr ⟨[a], post, by simp [he, hl]⟩
        · exact Or.inr ⟨a :: pre, post, by simp [hl]⟩
      · simp only [splitAux, hp, if_true, h, Bool.false_eq_true, if_false,
          List.mem_cons] at hs
        rcases hs with h1 | hs
        · exact Or.inl ⟨[], a :: rest, rfl, by simp [h1]⟩
        · rcases ih [] s hs with ⟨t, post, hl, he⟩ | ⟨pre, post, hl⟩
          · exact Or.inr ⟨[a], post, by simp [he, hl]⟩
          · exact Or.inr ⟨a :: pre, post, by simp [hl]⟩
    · simp only [splitAux, hp] at hs
      rcases ih (sec ++ [a]) s hs with ⟨t, post, hl, he⟩ | ⟨pre, post, hl⟩
      · exact Or.inl ⟨a :: t, post, by simp [hl], by simp [he]⟩
      · exact Or.inr ⟨a :: pre, post, by simp [hl]⟩

theorem splitAux_all_nonbarrier {α : Type} (p : α → Bool) (l : List α)
    (hl : ∀ a ∈ l, p a = false) :
    ∀ sec : List α, splitAux p sec l = if (sec ++ l).isEmpty then [] else [sec ++ l] := by
  induction l with
  | nil =>
    intro sec
    rw [List.append_nil]
    simp [splitAux]
  | cons a rest ih =>
    intro sec
    have hpa : p a = false := hl a (List.mem_cons_self _ _)
    have hrest : ∀ b ∈ rest, p b = false := fun b hb => hl b (List.mem_cons_of_mem _ hb)
    simp only [splitAux, hpa, Bool.false_eq_true, if_false, ih hrest (sec ++ [a])]
    simp

theorem splitIterable_all_nonbarrier {α : Type} (p : α → Bool) (l : List α)
    (hl : ∀ a ∈ l, p a = false) :
    splitIterable p l = if l.isEmpty then [] else [l] := by
  simpa using splitAux_all_nonbarrier p l hl []

theorem getLast?_append_of_ne_nil {α : Type} (l1 l2 : List α) (h : l2 ≠ []) :
    (l1 ++ l2).getLast? = l2.getLast? := by
  rw [List.getLast?_append]
  cases h2 : l2.getLast? with
  | none => exact absurd (List.getLast?_eq_none_iff.mp h2) h
  | some b => rfl

theorem splitIterable_single {α : Type} (p : α → Bool) (l t : List α)
    (hs : splitIterable p l = [t])
    (hh : t.head? = l.head?) (hl : t.getLast? = l.getLast?) :
    (∀ a ∈ l, p a = false) ∧ t = l := by
  have hjoin : t = l.filter (fun a => !(p a)) := by
    have hf := splitIterable_flatten p l
    rw [hs] at hf
    simpa using hf
  have ht_nb : ∀ a ∈ t, p a = false := by
    intro a ha
    have := List.of_mem_filter (p := fun a => !(p a)) (hjoin ▸ ha)
    simpa using this
  have hmem : t ∈ splitAux p [] l := by
    rw [show splitAux p [] l = splitIterable p l from rfl, hs]
    exact List.mem_singleton.mpr rfl
  have hinf : ∃ pre post, pre ++ t ++ post = l := by
    rcases splitAux_infix p l [] t hmem with ⟨t2, post, hl2, he⟩ | h
    · have he2 : t = t2 := by simpa using he
      exact ⟨[], post, by rw [he2]; simpa using hl2⟩
    · exact h
  rcases hinf with ⟨pre, post, hlp⟩
  have hft : t.filter (fun a => !(p a)) = t :=
    List.filter_eq_self.mpr (fun a ha => by simp [ht_nb a ha])
  have hdecomp : l.filter (fun a => !(p a)) =
      pre.filter (fun a => !(p a)) ++ t ++ post.filter (fun a => !(p a)) := by
    rw [← hlp, List.filter_append, List.filter_append, hft]
  have hlen : pre.filter (fun a => !(p a)) = [] ∧ post.filter (fun a => !(p a)) = [] := by
    have h1 : t.length =
        (pre.filter (fun a => !(p a))).length + t.length +
          (post.filter (fun a => !(p a))).length := by
      conv_lhs => rw [hjoin, hdecomp]
      simp [List.length_append]
      omega
    constructor
    · exact List.eq_nil_of_length_eq_zero (by omega)
    · exact List.eq_nil_of_length_eq_zero (by omega)
  have hpre_bar : ∀ a ∈ pre, p a = true := by
    intro a ha
    have := List.filter_eq_nil_iff.mp hlen.1 a ha
    simpa using this
  have hpost_bar : ∀ a ∈ post, p a = true := by
    intro a ha
    have := List.filter_eq_nil_iff.mp hlen.2 a ha
    simpa using this
  have hpre_nil : pre = [] := by
    cases hp : pre with
    | nil => rfl
    | cons b pre2 =>
      exfalso
      have hlh : l.head? = some b := by
        rw [← hlp, hp]
        rfl
      have hbt : b ∈ t := by
        have : t.head? = some b := hh.trans hlh
        exact List.mem_of_mem_head? (by rw [this]; exact rfl)
      have h1 : p b = false := ht_nb b hbt
      have h2 : p b = true := hpre_bar b (hp ▸ List.mem_cons_self _ _)
      rw [h1] at h2
      exact Bool.false_ne_true h2
  have hpost_nil : post = [] := by
    cases hp : post with
    | nil => rfl
    | cons d post2 =>
      exfalso
      have hne : post ≠ [] := by simp [hp]
      rcases hex : post.getLast? with _ | e
      · exact hne (List.getLast?_eq_none_iff.mp hex)
      · have hll : l.getLast? = some e := by
          rw [← hlp, List.append_assoc, getLast?_append_of_ne_nil _ _ (by simp [hp]),
            getLast?_append_of_ne_nil _ _ hne]
          exact hex
        have het : e ∈ t := List.mem_of_getLast?_eq_some (hl.trans hll)
        have h1 : p e = false := ht_nb e het
        have h2 : p e = true := hpost_bar e (List.mem_of_getLast?_eq_some hex)
        rw [h1] at h2
        exact Bool.false_ne_true h2
  have htl : t = l := by
    rw [← hlp, hpre_nil, hpost_nil]
    simp
  exact ⟨fun a ha => ht_nb a (htl ▸ ha), htl⟩

theorem orderedNeighbors_length (c : Coord) : (orderedNeighbors c).length = 6 := rfl

theorem orderedNeighbors_ne_nil (c : Coord) : orderedNeighbors c ≠ [] := by
  intro h
  have := orderedNeighbors_length c
  rw [h] at this
  cases this

theorem refactorCycle_of_single (s : ContiguousState) (h : s.sections.length = 1) :
    refactorCycle s = s := by
  unfold refactorCycle
  rw [if_neg]
  simp [h]

theorem refactorCycle_of_not_cycle (s : ContiguousState) (h : s.cycle = false) :
    refactorCycle s = s := by
  unfold refactorCycle
  rw [if_neg]
  simp [h]

theorem refactorCycle_cycle_true (s : ContiguousState) (hne : s.sections ≠ [])
    (h : (refactorCycle s).cycle = true) :
    s.cycle = true ∧ s.sections.length = 1 ∧ refactorCycle s = s := by
  by_cases hg : s.sections.length ≠ 1 ∧ s.cycle = true
  · exfalso
    obtain ⟨hlen, hcyc⟩ := hg
    obtain ⟨e, he⟩ : ∃ e, s.sections.getLast? = some e := by
      cases hx : s.sections.getLast? with
      | none => exact absurd (List.getLast?_eq_none_iff.mp hx) hne
      | some e => exact ⟨e, rfl⟩
    obtain ⟨first, rest, hd⟩ : ∃ first rest, s.sections.dropLast = first :: rest := by
      have hlen2 : 1 < s.sections.length := by
        have : 0 < s.sections.length := List.length_pos.mpr hne
        omega
      have : s.sections.dropLast.length = s.sections.length - 1 := List.length_dropLast _
      cases hx : s.sections.dropLast with
      | nil =>
        rw [hx] at this
        simp at this
        omega
      | cons a b => exact ⟨a, b, rfl⟩
    rw [refactorCycle, if_pos ⟨hlen, hcyc⟩, he, hd] at h
    simp at h
  · have heq : refactorCycle s = s := by
      rw [refactorCycle, if_neg hg]
    rw [heq] at h
    have hlen : s.sections.length = 1 := by
      by_contra hne1
      exact hg ⟨hne1, h⟩
    exact ⟨h, hlen, heq⟩

theorem refactorCycle_glue (first : List Coord) (rest : List (List Coord)) (v : Nat)
    (lastSec : List Coord) (hl : rest.getLast? = some lastSec) :
    refactorCycle ⟨first :: rest, true, v⟩ =
      ⟨(lastSec ++ first) :: rest.dropLast, false, v⟩ := by
  have hne : rest ≠ [] := by
    intro h
    rw [h] at hl
    cases hl
  have h1 : (first :: rest).getLast? = some lastSec := by
    rw [show first :: rest = [first] ++ rest from rfl, getLast?_append_of_ne_nil _ _ hne]
    exact hl
  obtain ⟨b, rest2, hr⟩ : ∃ b rest2, rest = b :: rest2 := by
    cases rest with
    | nil => exact absurd rfl hne
    | cons b r2 => exact ⟨b, r2, rfl⟩
  have h2 : (first :: rest).dropLast = first :: rest.dropLast := by
    rw [hr]
    rfl
  rw [refactorCycle]
  rw [if_pos]
  · rw [h1, h2]
  · constructor
    · have : 0 < rest.length := List.length_pos.mpr hne
      simp only [List.length_cons]
      omega
    · rfl

theorem ringConstraint_cycle_char (board : List (Coord × Hex)) (center : Coord) (v : Nat) :
    ((ringConstraint board center v).cycle = true ↔
      ∀ c ∈ orderedNeighbors center, isBarrier board c = false)
    ∧ ((ringConstraint board center v).cycle = true →
      (ringConstraint board center v).sections = [orderedNeighbors center]) := by
  have hNne := orderedNeighbors_ne_nil center
  have hfwd : (ringConstraint board center v).cycle = true →
      (∀ c ∈ orderedNeighbors center, isBarrier board c = false)
      ∧ (ringConstraint board center v).sections = [orderedNeighbors center] := by
    intro hcy
    rw [ringConstraint] at hcy
    have hSne : splitIterable (isBarrier board) (orderedNeighbors center) ≠ [] := by
      intro h0
      rw [h0] at hcy
      rw [show rawRingCycle [] (orderedNeighbors center) = false from rfl,
        refactorCycle_of_not_cycle _ rfl] at hcy
      cases hcy
    obtain ⟨hraw, hlen, heq⟩ := refactorCycle_cycle_true
      ⟨splitIterable (isBarrier board) (orderedNeighbors center),
       rawRingCycle (splitIterable (isBarrier board) (orderedNeighbors center))
         (orderedNeighbors center), v⟩ hSne hcy
    have hraw2 : rawRingCycle (splitIterable (isBarrier board) (orderedNeighbors center))
        (orderedNeighbors center) = true := hraw
    have hlen2 : (splitIterable (isBarrier board) (orderedNeighbors center)).length = 1 := hlen
    obtain ⟨t, hSt⟩ := List.length_eq_one.mp hlen2
    rw [hSt] at hraw2
    rcases hth : t.head? with _ | a
    · simp [rawRingCycle, hth] at hraw2
    rcases htl : t.getLast? with _ | b
    · simp [rawRingCycle, hth, htl] at hraw2
    rcases hNh : (orderedNeighbors center).head? with _ | n0
    · simp [rawRingCycle, hth, htl, hNh] at hraw2
    rcases hNl : (orderedNeighbors center).getLast? with _ | nl
    · simp [rawRingCycle, hth, htl, hNh, hNl] at hraw2
    simp only [rawRingCycle, hth, htl, hNh, hNl, List.head?_cons, List.getLast?_singleton,
      Option.some_bind, Bool.and_eq_true, decide_eq_true_eq] at hraw2
    obtain ⟨ha, hb⟩ := hraw2
    obtain ⟨hnb, htN⟩ := splitIterable_single (isBarrier board) (orderedNeighbors center) t
      hSt (by rw [hth, hNh, ha]) (by rw [htl, hNl, hb])
    refine ⟨hnb, ?_⟩
    rw [ringConstraint, heq]
    show splitIterable (isBarrier board) (orderedNeighbors center) = [orderedNeighbors center]
    rw [hSt, htN]
  refine ⟨⟨fun h => (hfwd h).1, ?_⟩, fun h => (hfwd h).2⟩
  intro hbar
  have hsplit : splitIterable (isBarrier board) (orderedNeighbors center) =
      [orderedNeighbors center] := by
    rw [splitIterable_all_nonbarrier _ _ hbar]
    cases hN : orderedNeighbors center with
    | nil => exact absurd hN hNne
    | cons n0 rng => rfl
  obtain ⟨n0, rng, hN⟩ : ∃ n0 rng, orderedNeighbors center = n0 :: rng := by
    cases hN : orderedNeighbors center with
    | nil => exact absurd hN hNne
    | cons n0 rng => exact ⟨n0, rng, rfl⟩
  obtain ⟨nl, hnl⟩ : ∃ nl, (orderedNeighbors center).getLast? = some nl := by
    cases hx : (orderedNeighbors center).getLast? with
    | none => exact absurd (List.getLast?_eq_none_iff.mp hx) hNne
    | some nl => exact ⟨nl, rfl⟩
  have hraw : rawRingCycle [orderedNeighbors center] (orderedNeighbors center) = true := by
    rw [hN] at hnl ⊢
    simp [rawRingCycle, hnl]
  rw [ringConstraint, hsplit, hraw,
    refactorCycle_of_single ⟨[orderedNeighbors center], true, v⟩ rfl]

theorem refreshSections_none_of_head (bar : Coord → Bool) (s : ContiguousState)
    (h : s.sections.head?.bind List.head? = none) :
    refreshSections bar s = none := by
  simp only [refreshSections, h]

theorem refreshSections_none_of_last (bar : Coord → Bool) (s : ContiguousState)
    (start : Coord) (h1 : s.sections.head?.bind List.head? = some start)
    (h2 : (s.sections.getLast?).bind List.getLast? = none) :
    refreshSections bar s = none := by
  simp only [refreshSections, h1, h2]

theorem refreshSections_eval_nocycle (bar : Coord → Bool) (s : ContiguousState)
    (start endc : Coord)
    (h1 : s.sections.head?.bind List.head? = some start)
    (h2 : (s.sections.getLast?).bind List.getLast? = some endc)
    (hcyc : s.cycle = false) :
    refreshSections bar s =
      some (refactorCycle ⟨(s.sections.map (splitIterable bar)).flatten, false, s.value⟩) := by
  simp only [refreshSections, h1, h2, hcyc, Bool.false_eq_true, if_false]

theorem refreshSections_none_of_cyc_head (bar : Coord → Bool) (s : ContiguousState)
    (start endc : Coord)
    (h1 : s.sections.head?.bind List.head? = some start)
    (h2 : (s.sections.getLast?).bind List.getLast? = some endc)
    (hcyc : s.cycle = true)
    (hm1 : ((s.sections.map (splitIterable bar)).flatten).head?.bind List.head? = none) :
    refreshSections bar s = none := by
  simp only [refreshSections, h1, h2, hcyc, if_true, hm1]

theorem refreshSections_none_of_cyc_last (bar : Coord → Bool) (s : ContiguousState)
    (start endc stH : Coord)
    (h1 : s.sections.head?.bind List.head? = some start)
    (h2 : (s.sections.getLast?).bind List.getLast? = some endc)
    (hcyc : s.cycle = true)
    (hm1 : ((s.sections.map (splitIterable bar)).flatten).head?.bind List.head? = some stH)
    (hm2 : (((s.sections.map (splitIterable bar)).flatten).getLast?).bind List.getLast?
      = none) :
    refreshSections bar s = none := by
  simp only [refreshSections, h1, h2, hcyc, if_true, hm1, hm2]

theorem refreshSections_eval_cycle (bar : Coord → Bool) (s : ContiguousState)
    (start endc stH enH : Coord)
    (h1 : s.sections.head?.bind List.head? = some start)
    (h2 : (s.sections.getLast?).bind List.getLast? = some endc)
    (hcyc : s.cycle = true)
    (hm1 : ((s.sections.map (splitIterable bar)).flatten).head?.bind List.head? = some stH)
    (hm2 : (((s.sections.map (splitIterable bar)).flatten).getLast?).bind List.getLast?
      = some enH) :
    refreshSections bar s =
      some (refactorCycle ⟨(s.sections.map (splitIterable bar)).flatten,
        decide (start = stH) && decide (endc = enH), s.value⟩) := by
  simp only [refreshSections, h1, h2, hcyc, if_true, hm1, hm2]

/-- The C7 invariant tying a constraint state to the cells of its ring:
the cycle flag is set iff no ring cell is a barrier, and a set flag
forces the state to hold the full ring as its single section. -/
def RingInv (bar : Coord → Bool) (rng : List Coord) (st : ContiguousState) : Prop :=
  (st.cycle = true ↔ ∀ c ∈ rng, bar c = false)
  ∧ (st.cycle = true → st.sections = [rng])

theorem refresh_preserves_RingInv (bar bar2 : Coord → Bool) (rng : List Coord)
    (st st2 : ContiguousState) (hinv : RingInv bar rng st)
    (hmono : ∀ c, bar c = true → bar2 c = true)
    (href : refreshSections bar2 st = some st2) :
    RingInv bar2 rng st2 := by
  obtain ⟨start, h1⟩ : ∃ start, st.sections.head?.bind List.head? = some start := by
    cases hx : st.sections.head?.bind List.head? with
    | none =>
      rw [refreshSections_none_of_head bar2 st hx] at href
      cases href
    | some a => exact ⟨a, rfl⟩
  obtain ⟨endc, h2⟩ : ∃ endc, (st.sections.getLast?).bind List.getLast? = some endc := by
    cases hx : (st.sections.getLast?).bind List.getLast? with
    | none =>
      rw [refreshSections_none_of_last bar2 st start h1 hx] at href
      cases href
    | some a => exact ⟨a, rfl⟩
  cases hcyc : st.cycle with
  | false =>
    obtain ⟨c0, hc0, hbc0⟩ : ∃ c ∈ rng, bar c = true := by
      by_contra hall
      push_neg at hall
      have hct : st.cycle = true := hinv.1.mpr (fun c hc => by
        have h1b := hall c hc
        revert h1b
        cases bar c <;> simp)
      rw [hcyc] at hct
      cases hct
    rw [refreshSections_eval_nocycle bar2 st start endc h1 h2 hcyc] at href
    have hst2 : st2 = refactorCycle
        ⟨(st.sections.map (splitIterable bar2)).flatten, false, st.value⟩ :=
      (Option.some.inj href).symm
    have hc2 : st2.cycle = false := by
      rw [hst2, refactorCycle_of_not_cycle _ rfl]
    constructor
    · rw [hc2]
      constructor
      · intro h
        cases h
      · intro hb
        have hbb := hb c0 hc0
        rw [hmono c0 hbc0] at hbb
        cases hbb
    · intro h
      rw [hc2] at h
      cases h
  | true =>
    have hsec : st.sections = [rng] := hinv.2 hcyc
    cases rng with
    | nil =>
      rw [hsec] at h1
      cases h1
    | cons n0 rng2 =>
      obtain ⟨nl, hnl⟩ : ∃ nl, (n0 :: rng2).getLast? = some nl := by
        cases hx : (n0 :: rng2).getLast? with
        | none =>
          rw [List.getLast?_eq_none_iff] at hx
          cases hx
        | some nl => exact ⟨nl, rfl⟩
      have hstart : start = n0 := by
        rw [hsec] at h1
        simp only [List.head?_cons, Option.some_bind] at h1
        exact (Option.some.inj h1).symm
      have hendc : endc = nl := by
        rw [hsec] at h2
        simp only [List.getLast?_singleton, Option.some_bind, hnl] at h2
        exact (Option.some.inj h2).symm
      have hns : (st.sections.map (splitIterable bar2)).flatten =
          splitIterable bar2 (n0 :: rng2) := by
        rw [hsec]
        simp
      by_cases hbar2 : ∀ c ∈ n0 :: rng2, bar2 c = false
      · have hsplit2 : splitIterable bar2 (n0 :: rng2) = [n0 :: rng2] := by
          rw [splitIterable_all_nonbarrier _ _ hbar2]
          rfl
        have hm1 : ((st.sections.map (splitIterable bar2)).flatten).head?.bind List.head?
            = some n0 := by
          rw [hns, hsplit2]
          simp
        have hm2 : (((st.sections.map (splitIterable bar2)).flatten).getLast?).bind
            List.getLast? = some nl := by
          rw [hns, hsplit2]
          simp [hnl]
        rw [refreshSections_eval_cycle bar2 st start endc n0 nl h1 h2 hcyc hm1 hm2] at href
        have hst2 : st2 = refactorCycle
            ⟨(st.sections.map (splitIterable bar2)).flatten,
              decide (start = n0) && decide (endc = nl), st.value⟩ :=
          (Option.some.inj href).symm
        rw [hns, hsplit2, hstart, hendc] at hst2
        rw [show (decide (n0 = n0) && decide (nl = nl)) = true by simp] at hst2
        rw [refactorCycle_of_single ⟨[n0 :: rng2], true, st.value⟩ rfl] at hst2
        rw [hst2]
        exact ⟨by simpa using hbar2, fun _ => rfl⟩
      · obtain ⟨stH, hm1⟩ : ∃ stH,
            ((st.sections.map (splitIterable bar2)).flatten).head?.bind List.head?
              = some stH := by
          cases hx : ((st.sections.map (splitIterable bar2)).flatten).head?.bind List.head? with
          | none =>
            rw [refreshSections_none_of_cyc_head bar2 st start endc h1 h2 hcyc hx] at href
            cases href
          | some a => exact ⟨a, rfl⟩
        obtain ⟨enH, hm2⟩ : ∃ enH,
            (((st.sections.map (splitIterable bar2)).flatten).getLast?).bind List.getLast?
              = some enH := by
          cases hx : (((st.sections.map (splitIterable bar2)).flatten).getLast?).bind
              List.getLast? with
          | none =>
            rw [refreshSections_none_of_cyc_last bar2 st start endc stH h1 h2 hcyc hm1 hx]
              at href
            cases href
          | some a => exact ⟨a, rfl⟩
        rw [refreshSections_eval_cycle bar2 st start endc stH enH h1 h2 hcyc hm1 hm2] at href
        have hst2 : st2 = refactorCycle
            ⟨(st.sections.map (splitIterable bar2)).flatten,
              decide (start = stH) && decide (endc = enH), st.value⟩ :=
          (Option.some.inj href).symm
        have hc2 : st2.cycle = false := by
          by_contra hc2t
          have hc2t : st2.cycle = true := by
            revert hc2t
            cases st2.cycle <;> simp
          have hnsne : (st.sections.map (splitIterable bar2)).flatten ≠ [] := by
            intro h0
            rw [h0] at hm1
            cases hm1
          rw [hst2] at hc2t
          obtain ⟨hcycB, hlen1, _⟩ := refactorCycle_cycle_true _ hnsne hc2t
          have hcycB2 : (decide (start = stH) && decide (endc = enH)) = true := hcycB
          have hlen12 : ((st.sections.map (splitIterable bar2)).flatten).length = 1 := hlen1
          obtain ⟨t, ht⟩ := List.length_eq_one.mp hlen12
          rw [hns] at ht
          have hth : t.head? = some stH := by
            rw [hns, ht] at hm1
            simpa using hm1
          have htl2 : t.getLast? = some enH := by
            rw [hns, ht] at hm2
            simpa using hm2
          simp only [Bool.and_eq_true, decide_eq_true_eq] at hcycB2
          obtain ⟨he1, he2⟩ := hcycB2
          have hsg := splitIterable_single bar2 (n0 :: rng2) t ht
            (by rw [hth, ← he1, hstart]; rfl)
            (by rw [htl2, ← he2, hendc, hnl])
          exact hbar2 hsg.1
        constructor
        · rw [hc2]
          constructor
          · intro h
            cases h
          · intro hb
            exact absurd hb hbar2
        · intro h
          rw [hc2] at h
          cases h

/-- C7: after construction from a ring the cyclic flag is true iff the
ring contains no barrier (Safe or missing cell) at all, and a true flag
forces the whole ring to be the single section; the invariant "flag set
iff no ring cell is a barrier, and then exactly the one full-ring
section" is preserved by every resectioning against a board whose
barrier set has only grown (cells only ever turn Safe); and when the
flag is set while several sections exist, refactoring glues the popped
last section in front of the first and clears the flag, rewriting the
seam-wrapping run into one non-cyclic section. -/
theorem C7_cyclic_flag_iff_no_barrier :
    (∀ (board : List (Coord × Hex)) (center : Coord) (v : Nat),
      ((ringConstraint board center v).cycle = true ↔
        ∀ c ∈ orderedNeighbors center, isBarrier board c = false)
      ∧ ((ringConstraint board center v).cycle = true →
        (ringConstraint board center v).sections = [orderedNeighbors center]))
    ∧ (∀ (bar bar2 : Coord → Bool) (rng : List Coord) (st st2 : ContiguousState),
      RingInv bar rng st → (∀ c, bar c = true → bar2 c = true) →
      refreshSections bar2 st = some st2 → RingInv bar2 rng st2)
    ∧ (∀ (first : List Coord) (rest : List (List Coord)) (v : Nat) (lastSec : List Coord),
      rest.getLast? = some lastSec →
      refactorCycle ⟨first :: rest, true, v⟩ =
        ⟨(lastSec ++ first) :: rest.dropLast, false, v⟩) :=
  ⟨ringConstraint_cycle_char, refresh_preserves_RingInv, refactorCycle_glue⟩

/-- A board for the C7 witness: a center cell and its six ring neighbors,
all yellow, so the ring has no barrier. -/
def c7Board : List (Coord × Hex) :=
  (((0 : Int), (0 : Int), (0 : Int)), ⟨none, none, Color.yellow⟩) ::
    (orderedNeighbors ((0 : Int), (0 : Int), (0 : Int))).map
      (fun c => (c, ⟨none, none, Color.yellow⟩))

/-- Witness for C7: the barrier-free ring of c7Board builds a cyclic
constraint; refreshing the two-cell cyclic state [[A, W]] against a
board where W became a barrier yields a state satisfying the invariant;
and refactoring a two-section cyclic state glues the last section in
front of the first. -/
theorem C7_cyclic_flag_iff_no_barrier_witness :
    (ringConstraint c7Board ((0 : Int), (0 : Int), (0 : Int)) 2).cycle = true
    ∧ RingInv (fun c => decide (c = ((1 : Int), (-1 : Int), (0 : Int))))
        [((0 : Int), (0 : Int), (0 : Int)), ((1 : Int), (-1 : Int), (0 : Int))]
        ⟨[[((0 : Int), (0 : Int), (0 : Int))]], false, 2⟩
    ∧ refactorCycle
        ⟨[[((0 : Int), (0 : Int), (0 : Int))], [((1 : Int), (-1 : Int), (0 : Int))]],
          true, 2⟩ =
      ⟨([((1 : Int), (-1 : Int), (0 : Int))] ++ [((0 : Int), (0 : Int), (0 : Int))]) ::
          ([[((1 : Int), (-1 : Int), (0 : Int))]] : List (List Coord)).dropLast,
        false, 2⟩ :=
  ⟨((C7_cyclic_flag_iff_no_barrier.1 c7Board ((0 : Int), (0 : Int), (0 : Int)) 2).1).mpr
      (by decide),
   C7_cyclic_flag_iff_no_barrier.2.1 (fun _ => false)
      (fun c => decide (c = ((1 : Int), (-1 : Int), (0 : Int))))
      [((0 : Int), (0 : Int), (0 : Int)), ((1 : Int), (-1 : Int), (0 : Int))]
      ⟨[[((0 : Int), (0 : Int), (0 : Int)), ((1 : Int), (-1 : Int), (0 : Int))]], true, 2⟩
      ⟨[[((0 : Int), (0 : Int), (0 : Int))]], false, 2⟩
      ⟨by decide, fun _ => rfl⟩ (fun c h => nomatch h) (by decide),
   C7_cyclic_flag_iff_no_barrier.2.2 [((0 : Int), (0 : Int), (0 : Int))]
      [[((1 : Int), (-1 : Int), (0 : Int))]] 2 [((1 : Int), (-1 : Int), (0 : Int))] rfl⟩

/-- An item yielded by the ContiguousConstraint generators.  All
deduction yields are (coordinate, color) pairs produced via
_set_sections; the final branch of _prune_sections instead yields the
removed sections themselves (yield from to_remove), bare lists of
coordinates, which this sum type records faithfully. -/
inductive Yielded : Type where
  | sol : Coord → Color → Yielded
  | raw : List Coord → Yielded
deriving DecidableEq, Repr

/-- True exactly on the bare-section items. -/
def isRawItem : Yielded → Bool
  | Yielded.sol _ _ => false
  | Yielded.raw _ => true

/-- Embedding of ContiguousConstraint._set_sections: one (coordinate,
color) pair per cell of each given section, in order. -/
def setSections (sections : List (List Coord)) (color : Color) : List (Coord × Color) :=
  (sections.map (fun sect => sect.map (fun c => (c, color)))).flatten

/-- Embedding of ContiguousConstraint._prune_sections, against the
overlay-aware color view bv (self[coord].color).  Returns the yielded
items and the surviving section list (the method reassigns
self._contiguous_hexes).  The blue branch yields (coordinate, black)
pairs via _set_sections and keeps only the first blue section; the
too-small branch partitions with util.partition_if and then yields the
removed sections themselves, not pairs. -/
def pruneSections (bv : Coord → Color) (value : Nat) (sections : List (List Coord)) :
    List Yielded × List (List Coord) :=
  if sections.length ≤ 1 then ([], sections)
  else
    match sections.findIdx? (fun sect => sect.any (fun c => decide (bv c = Color.blue))) with
    | some i =>
      ((setSections (sections.take i) Color.black).map (fun pr => Yielded.sol pr.1 pr.2)
        ++ (setSections (sections.drop (i + 1)) Color.black).map
          (fun pr => Yielded.sol pr.1 pr.2),
       [sections.getD i []])
    | none =>
      let pr := sections.partition (fun sect => decide (sect.length < value))
      (pr.1.map Yielded.raw, pr.2)

/-- C3 failing input, evaluated: a constraint with value 2, two sections
[[(0,0,0)], [(1,-1,0),(2,-2,0),(3,-3,0)]] and no known Mine anywhere.
The one-cell section is too small to hold the run, and the code yields it
as a bare coordinate list (Yielded.raw), not as the (coordinate, Safe)
pair the claim describes: every item the prune emits here is a bare
section. -/
theorem C3_prune_yields_bare_sections :
    pruneSections (fun _ => Color.yellow) 2
        [[((0 : Int), (0 : Int), (0 : Int))],
         [((1 : Int), (-1 : Int), (0 : Int)), ((2 : Int), (-2 : Int), (0 : Int)),
          ((3 : Int), (-3 : Int), (0 : Int))]] =
      ([Yielded.raw [((0 : Int), (0 : Int), (0 : Int))]],
       [[((1 : Int), (-1 : Int), (0 : Int)), ((2 : Int), (-2 : Int), (0 : Int)),
         ((3 : Int), (-3 : Int), (0 : Int))]])
    ∧ ((pruneSections (fun _ => Color.yellow) 2
        [[((0 : Int), (0 : Int), (0 : Int))],
         [((1 : Int), (-1 : Int), (0 : Int)), ((2 : Int), (-2 : Int), (0 : Int)),
          ((3 : Int), (-3 : Int), (0 : Int))]]).1.all isRawItem) = true := by
  refine ⟨by decide, by decide⟩

/-- The blues list of the section solvers: indices of already-blue cells
within the section, in enumeration order. -/
def blueIndices (bv : Coord → Color) (sect : List Coord) : List Nat :=
  (sect.enum.filter (fun ic => decide (bv ic.2 = Color.blue))).map Prod.fst

/-- The window of value consecutive positions mod the section length,
starting at i (the section_range set of _solve_cyclic_section). -/
def sectionRange (len value i : Nat) : Finset Nat :=
  ((List.range value).map (fun k => (i + k) % len)).toFinset

/-- The possible-index set of _solve_cyclic_section: the union over all
rotation starts i of the windows whose index set contains every blue
index. -/
def possibleIndices (len value : Nat) (blues : List Nat) : Finset Nat :=
  (List.range len).foldl
    (fun acc i =>
      if blues.all (fun b => decide (b ∈ sectionRange len value i)) then
        acc ∪ sectionRange len value i
      else acc)
    ∅

/-- The possible set converted to coordinates
(possible = \x7bsection[p] for p in possible\x7d); every member of
possibleIndices is smaller than the section length, so the getD default
is never read. -/
def possibleCoords (bv : Coord → Color) (value : Nat) (sect : List Coord) : Finset Coord :=
  (possibleIndices sect.length value (blueIndices bv sect)).image
    (fun p => sect.getD p ((0 : Int), (0 : Int), (0 : Int)))

/-- itertools.groupby keyed through a Boolean function: the maximal runs
of elements with equal key, each paired with that key. -/
def chunkByKey {α : Type} (f : α → Bool) : List α → List (Bool × List α)
  | [] => []
  | a :: rest =>
    match chunkByKey f rest with
    | [] => [(f a, [a])]
    | (k, g) :: gs => if k = f a then (k, a :: g) :: gs else (f a, [a]) :: (k, g) :: gs

/-- Embedding of ContiguousConstraint._solve_cyclic_section on the single
section held by the constraint (the method runs under self._cycle and a
one-element _contiguous_hexes).  Returns the yielded deductions, the new
section list and the new cycle flag. -/
def solveCyclicSection (bv : Coord → Color) (value : Nat) (sect : List Coord) :
    List (Coord × Color) × List (List Coord) × Bool :=
  if blueIndices bv sect = [] then ([], [sect], true)
  else
    let chunks := chunkByKey (fun c => decide (c ∈ possibleCoords bv value sect)) sect
    let toKeep := (chunks.filter (fun kg => kg.1)).map Prod.snd
    let toRemove := (chunks.filter (fun kg => !kg.1)).map Prod.snd
    if toRemove = [] then ([], [sect], true)
    else (setSections toRemove Color.black, [(toKeep.reverse).flatten], false)

theorem chunkByKey_ne_nil {α : Type} (f : α → Bool) (a : α) (l : List α) :
    chunkByKey f (a :: l) ≠ [] := by
  cases hC : chunkByKey f l with
  | nil => simp [chunkByKey, hC]
  | cons kg gs =>
    by_cases h : kg.1 = f a <;> simp [chunkByKey, hC, h]

theorem chunk_filter_flatten {α : Type} (f : α → Bool) (g : Bool → Bool) (l : List α) :
    (((chunkByKey f l).filter (fun kg => g kg.1)).map Prod.snd).flatten
      = l.filter (fun a => g (f a)) := by
  induction l with
  | nil => rfl
  | cons a rest ih =>
    cases hC : chunkByKey f rest with
    | nil =>
      have hrest : rest = [] := by
        cases rest with
        | nil => rfl
        | cons b r2 => exact absurd hC (chunkByKey_ne_nil f b r2)
      subst hrest
      by_cases hg : g (f a) = true <;>
        simp [chunkByKey, List.filter_cons, hg]
    | cons kg gs =>
      obtain ⟨k1, g1⟩ := kg
      rw [hC] at ih
      have hsplit : chunkByKey f (a :: rest) =
          if k1 = f a then (k1, a :: g1) :: gs else (f a, [a]) :: (k1, g1) :: gs := by
        rw [chunkByKey, hC]
      by_cases hk : k1 = f a
      · by_cases hg : g (f a) = true
        · have hg1 : g k1 = true := by
            rw [hk]
            exact hg
          simp only [hsplit, if_pos hk, List.filter_cons, hg1, hg, if_true, List.map_cons,
            List.flatten_cons] at ih ⊢
          rw [← ih]
          rfl
        · have hgf : g (f a) = false := by
            revert hg
            cases g (f a) <;> simp
          have hg1 : g k1 = false := by
            rw [hk]
            exact hgf
          simp only [hsplit, if_pos hk, List.filter_cons, hg1, hgf, Bool.false_eq_true,
            if_false] at ih ⊢
          exact ih
      · rw [List.filter_cons] at ih
        by_cases hg : g (f a) = true
        · simp only [hsplit, if_neg hk, List.filter_cons, hg, if_true, List.map_cons,
            List.flatten_cons]
          rw [ih]
          rfl
        · have hgf : g (f a) = false := by
            revert hg
            cases g (f a) <;> simp
          simp only [hsplit, if_neg hk, List.filter_cons, hgf, Bool.false_eq_true, if_false]
          exact ih

theorem setSections_eq_map (sections : List (List Coord)) (color : Color) :
    setSections sections color = sections.flatten.map (fun c => (c, color)) := by
  simp [setSections, List.map_flatten]

theorem foldl_union_mem (g : Nat → Finset Nat) (P : Nat → Bool) (l : List Nat)
    (init : Finset Nat) (p : Nat) :
    (p ∈ l.foldl (fun acc i => if P i then acc ∪ g i else acc) init) ↔
      p ∈ init ∨ ∃ i ∈ l, P i = true ∧ p ∈ g i := by
  induction l generalizing init with
  | nil => simp
  | cons a rest ih =>
    rw [List.foldl_cons, ih]
    by_cases hP : P a = true
    · simp only [hP, if_true, Finset.mem_union, List.mem_cons]
      constructor
      · rintro ((h | h) | ⟨i, hi, hPi, hp⟩)
        · exact Or.inl h
        · exact Or.inr ⟨a, Or.inl rfl, hP, h⟩
        · exact Or.inr ⟨i, Or.inr hi, hPi, hp⟩
      · rintro (h | ⟨i, hi | hi, hPi, hp⟩)
        · exact Or.inl (Or.inl h)
        · exact Or.inl (Or.inr (hi ▸ hp))
        · exact Or.inr ⟨i, hi, hPi, hp⟩
    · have hPf : P a = false := by
        revert hP
        cases P a <;> simp
      simp only [hPf, Bool.false_eq_true, if_false, List.mem_cons]
      constructor
      · rintro (h | ⟨i, hi, hPi, hp⟩)
        · exact Or.inl h
        · exact Or.inr ⟨i, Or.inr hi, hPi, hp⟩
      · rintro (h | ⟨i, hi | hi, hPi, hp⟩)
        · exact Or.inl h
        · rw [hi, hPf] at hPi
          cases hPi
        · exact Or.inr ⟨i, hi, hPi, hp⟩

/-- C4: for a contiguity-Required constraint on a single cyclic section
with at least one known Mine, the possible-index set is exactly the
union, over rotation starts i, of the mod-length windows of value
consecutive positions whose index sets contain every blue index; every
section cell outside that set is emitted as a Safe (black) deduction, in
order; the cells kept in the surviving sections are exactly those inside
the set (regrouped across the seam, hence stated up to permutation); and
whenever something was emitted the cycle flag is cleared and a single
glued section remains. -/
theorem C4_cyclic_section_windows (bv : Coord → Color) (value : Nat) (sect : List Coord)
    (h : blueIndices bv sect ≠ []) :
    (∀ p : Nat, p ∈ possibleIndices sect.length value (blueIndices bv sect) ↔
      ∃ i, i < sect.length
        ∧ (∀ b ∈ blueIndices bv sect, b ∈ sectionRange sect.length value i)
        ∧ p ∈ sectionRange sect.length value i)
    ∧ (solveCyclicSection bv value sect).1 =
        (sect.filter (fun c => !(decide (c ∈ possibleCoords bv value sect)))).map
          (fun c => (c, Color.black))
    ∧ ((solveCyclicSection bv value sect).2.1.flatten).Perm
        (sect.filter (fun c => decide (c ∈ possibleCoords bv value sect)))
    ∧ ((solveCyclicSection bv value sect).1 ≠ [] →
        (solveCyclicSection bv value sect).2.2 = false
        ∧ (solveCyclicSection bv value sect).2.1.length = 1) := by
  have hmem : ∀ p : Nat, p ∈ possibleIndices sect.length value (blueIndices bv sect) ↔
      ∃ i, i < sect.length
        ∧ (∀ b ∈ blueIndices bv sect, b ∈ sectionRange sect.length value i)
        ∧ p ∈ sectionRange sect.length value i := by
    intro p
    rw [possibleIndices, foldl_union_mem]
    simp only [Finset.not_mem_empty, false_or, List.mem_range, List.all_eq_true,
      decide_eq_true_eq]
  have hremove : ((((chunkByKey (fun c => decide (c ∈ possibleCoords bv value sect)) sect).filter
        (fun kg => !kg.1)).map Prod.snd)).flatten
      = sect.filter (fun c => !(decide (c ∈ possibleCoords bv value sect))) := by
    have := chunk_filter_flatten (fun c => decide (c ∈ possibleCoords bv value sect))
      (fun b => !b) sect
    simpa using this
  have hkeep : ((((chunkByKey (fun c => decide (c ∈ possibleCoords bv value sect)) sect).filter
        (fun kg => kg.1)).map Prod.snd)).flatten
      = sect.filter (fun c => decide (c ∈ possibleCoords bv value sect)) := by
    have := chunk_filter_flatten (fun c => decide (c ∈ possibleCoords bv value sect))
      (fun b => b) sect
    simpa using this
  by_cases hR : ((chunkByKey (fun c => decide (c ∈ possibleCoords bv value sect)) sect).filter
      (fun kg => !kg.1)).map Prod.snd = []
  · have hsolve : solveCyclicSection bv value sect = ([], [sect], true) := by
      simp [solveCyclicSection, h, hR]
    have hfneg : sect.filter (fun c => !(decide (c ∈ possibleCoords bv value sect))) = [] := by
      rw [← hremove, hR]
      rfl
    have hfpos : sect.filter (fun c => decide (c ∈ possibleCoords bv value sect)) = sect := by
      apply List.filter_eq_self.mpr
      intro c hc
      by_contra hfc
      have hfc2 : decide (c ∈ possibleCoords bv value sect) = false := by
        revert hfc
        cases decide (c ∈ possibleCoords bv value sect) <;> simp
      have hmem2 : c ∈ sect.filter
          (fun c => !(decide (c ∈ possibleCoords bv value sect))) :=
        List.mem_filter.mpr ⟨hc, by simp [hfc2]⟩
      rw [hfneg] at hmem2
      cases hmem2
    refine ⟨hmem, ?_, ?_, ?_⟩
    · rw [hsolve, hfneg]
      rfl
    · rw [hsolve, hfpos]
      simp
    · rw [hsolve]
      intro h2
      exact absurd rfl h2
  · have hsolve : solveCyclicSection bv value sect =
        (setSections (((chunkByKey (fun c => decide (c ∈ possibleCoords bv value sect))
              sect).filter (fun kg => !kg.1)).map Prod.snd) Color.black,
         [((((chunkByKey (fun c => decide (c ∈ possibleCoords bv value sect)) sect).filter
              (fun kg => kg.1)).map Prod.snd).reverse).flatten],
         false) := by
      simp [solveCyclicSection, h, hR]
    refine ⟨hmem, ?_, ?_, ?_⟩
    · rw [hsolve]
      show setSections (((chunkByKey (fun c => decide (c ∈ possibleCoords bv value sect))
          sect).filter (fun kg => !kg.1)).map Prod.snd) Color.black = _
      rw [setSections_eq_map, hremove]
    · rw [hsolve]
      show (((((chunkByKey (fun c => decide (c ∈ possibleCoords bv value sect)) sect).filter
          (fun kg => kg.1)).map Prod.snd).reverse).flatten ++ ([] : List (List Coord)).flatten).Perm _
      rw [List.flatten_nil, List.append_nil, ← hkeep]
      exact (List.reverse_perm _).flatten
    · rw [hsolve]
      intro _
      exact ⟨rfl, rfl⟩

/-- The six-cell ring of the C4 witness in section order. -/
def sectC4 : List Coord :=
  [((0 : Int), (0 : Int), (0 : Int)), ((1 : Int), (-1 : Int), (0 : Int)),
   ((2 : Int), (-2 : Int), (0 : Int)), ((3 : Int), (-3 : Int), (0 : Int)),
   ((4 : Int), (-4 : Int), (0 : Int)), ((5 : Int), (-5 : Int), (0 : Int))]

/-- The C4 witness color view: only position 0 of the ring is a Mine. -/
def bvC4 : Coord → Color :=
  fun c => if c = ((0 : Int), (0 : Int), (0 : Int)) then Color.blue else Color.yellow

/-- Witness for C4 on the Scenario 3 ring: value 2, position 0 Mine;
positions 2, 3, 4 are emitted Safe, positions 5, 0, 1 are regrouped into
the single surviving section with the cyclic flag cleared, and the
emitted list matches the window characterization of the theorem. -/
theorem C4_cyclic_section_windows_witness :
    blueIndices bvC4 sectC4 ≠ []
    ∧ solveCyclicSection bvC4 2 sectC4 =
        ([(((2 : Int), (-2 : Int), (0 : Int)), Color.black),
          (((3 : Int), (-3 : Int), (0 : Int)), Color.black),
          (((4 : Int), (-4 : Int), (0 : Int)), Color.black)],
         [[((5 : Int), (-5 : Int), (0 : Int)), ((0 : Int), (0 : Int), (0 : Int)),
           ((1 : Int), (-1 : Int), (0 : Int))]],
         false)
    ∧ (solveCyclicSection bvC4 2 sectC4).1 =
        (sectC4.filter (fun c => !(decide (c ∈ possibleCoords bvC4 2 sectC4)))).map
          (fun c => (c, Color.black)) :=
  ⟨by decide, by decide,
   (C4_cyclic_section_windows bvC4 2 sectC4 (by decide)).2.1⟩

/-- Python slice l[-v:v], as used for section[-self.value:self.value]:
the negative start index clamps to max(0, len - v), the stop index to
min(v, len). -/
def sliceNegPos {α : Type} (l : List α) (v : Nat) : List α :=
  (l.drop (l.length - v)).take (v - (l.length - v))

/-- Embedding of ContiguousConstraint._solve_noncyclic_section on the
single section held by the constraint.  When blues exist, the cells
before max(0, last_blue - value + 1) and from first_blue + value on are
yielded black and the section is narrowed in place to that window; then
the still-yellow cells of the slice [-value:value] of the (possibly
narrowed) section are yielded blue.  Returns the yielded pairs and the
new section. -/
def solveNoncyclicSection (bv : Coord → Color) (value : Nat) (sect : List Coord) :
    List (Coord × Color) × List Coord :=
  if blueIndices bv sect = [] then
    (((sliceNegPos sect value).filter (fun c => decide (bv c = Color.yellow))).map
        (fun c => (c, Color.blue)),
     sect)
  else
    let maxLeft : Nat := ((blueIndices bv sect).getLast?.getD 0 + 1) - value
    let minRight : Nat := (blueIndices bv sect).head?.getD 0 + value
    let trimmed := setSections [sect.take maxLeft, sect.drop minRight] Color.black
    let sect2 := (sect.drop maxLeft).take (minRight - maxLeft)
    let mines := ((sliceNegPos sect2 value).filter
        (fun c => decide (bv c = Color.yellow))).map (fun c => (c, Color.blue))
    (trimmed ++ mines, sect2)

/-- C5: for a single non-cyclic section with known-Mine indices, the
solver computes left = max(0, last(blues) - value + 1) (stated over the
integers, matching the truncated natural subtraction the embedding uses)
and right = first(blues) + value, yields every cell before left and at or
after right as Safe (black), narrows the section to [left, right), and
independently yields every still-Unknown (yellow) cell of the slice
[-value : value] of the narrowed section as a Mine (blue). -/
theorem C5_noncyclic_section_trim (bv : Coord → Color) (value : Nat) (sect : List Coord)
    (h : blueIndices bv sect ≠ []) :
    ((((blueIndices bv sect).getLast?.getD 0 + 1) - value : Nat) : Int)
        = max 0 (((blueIndices bv sect).getLast?.getD 0 : Int) - (value : Int) + 1)
    ∧ (solveNoncyclicSection bv value sect).1 =
        (sect.take (((blueIndices bv sect).getLast?.getD 0 + 1) - value)).map
            (fun c => (c, Color.black))
          ++ (sect.drop ((blueIndices bv sect).head?.getD 0 + value)).map
            (fun c => (c, Color.black))
          ++ ((sliceNegPos ((sect.drop (((blueIndices bv sect).getLast?.getD 0 + 1)
                  - value)).take (((blueIndices bv sect).head?.getD 0 + value)
                  - (((blueIndices bv sect).getLast?.getD 0 + 1) - value))) value).filter
              (fun c => decide (bv c = Color.yellow))).map (fun c => (c, Color.blue))
    ∧ (solveNoncyclicSection bv value sect).2 =
        (sect.drop (((blueIndices bv sect).getLast?.getD 0 + 1) - value)).take
          (((blueIndices bv sect).head?.getD 0 + value)
            - (((blueIndices bv sect).getLast?.getD 0 + 1) - value)) := by
  refine ⟨?_, ?_, ?_⟩
  · omega
  · simp [solveNoncyclicSection, h, setSections]
  · simp [solveNoncyclicSection, h]

/-- The seven-cell linear section of the C5 witness. -/
def sectC5 : List Coord :=
  [((0 : Int), (0 : Int), (0 : Int)), ((1 : Int), (-1 : Int), (0 : Int)),
   ((2 : Int), (-2 : Int), (0 : Int)), ((3 : Int), (-3 : Int), (0 : Int)),
   ((4 : Int), (-4 : Int), (0 : Int)), ((5 : Int), (-5 : Int), (0 : Int)),
   ((6 : Int), (-6 : Int), (0 : Int))]

/-- The C5 witness color view: only position 4 of the section is a
Mine. -/
def bvC5 : Coord → Color :=
  fun c => if c = ((4 : Int), (-4 : Int), (0 : Int)) then Color.blue else Color.yellow

/-- Witness for C5 on the Scenario 4 section: value 3, position 4 Mine:
left = 2, right = 7, positions 0 and 1 are emitted Safe, nothing is
trimmed on the right, the section narrows to positions 2..6, and no Mine
is emitted because the sole forced slice cell is already blue. -/
theorem C5_noncyclic_section_trim_witness :
    blueIndices bvC5 sectC5 ≠ []
    ∧ solveNoncyclicSection bvC5 3 sectC5 =
        ([(((0 : Int), (0 : Int), (0 : Int)), Color.black),
          (((1 : Int), (-1 : Int), (0 : Int)), Color.black)],
         [((2 : Int), (-2 : Int), (0 : Int)), ((3 : Int), (-3 : Int), (0 : Int)),
          ((4 : Int), (-4 : Int), (0 : Int)), ((5 : Int), (-5 : Int), (0 : Int)),
          ((6 : Int), (-6 : Int), (0 : Int))])
    ∧ (solveNoncyclicSection bvC5 3 sectC5).2 =
        (sectC5.drop (((blueIndices bvC5 sectC5).getLast?.getD 0 + 1) - 3)).take
          (((blueIndices bvC5 sectC5).head?.getD 0 + 3)
            - (((blueIndices bvC5 sectC5).getLast?.getD 0 + 1) - 3)) :=
  ⟨by decide, by decide,
   (C5_noncyclic_section_trim bvC5 3 sectC5 (by decide)).2.2⟩

/-- The board state of HexBoard that apply_clicked manipulates: the
authoritative map _board and the overlay _clicked, association lists in
insertion order. -/
structure BoardState : Type where
  board : List (Coord × Hex)
  clicked : List (Coord × Hex)
deriving DecidableEq, Repr

/-- The overlay-aware lookup HexBoard.__getitem__: a clicked entry
shadows the authoritative one; a coordinate in neither map is Python's
KeyError, modelled as none. -/
def boardGet (b : BoardState) (c : Coord) : Option Hex :=
  match alookup b.clicked c with
  | some h => some h
  | none => alookup b.board c

/-- One iteration of the apply_clicked loop:
self._board[coord].color = hex_.color sets only the color field of the
authoritative Hex at the clicked coordinate.  A clicked coordinate
missing from the authoritative map would be a KeyError in the source;
the map-based embedding leaves the board unchanged only on that
unreachable input. -/
def applyStep (board : List (Coord × Hex)) (ck : Coord × Hex) : List (Coord × Hex) :=
  board.map (fun p => if p.1 = ck.1 then (p.1, { p.2 with color := ck.2.color }) else p)

/-- Embedding of HexBoard.apply_clicked: fold every overlay entry into
the authoritative map, then clear the overlay. -/
def applyClicked (b : BoardState) : BoardState :=
  ⟨b.clicked.foldl applyStep b.board, []⟩

theorem applyFold_not_clicked (cks : List (Coord × Hex)) :
    ∀ (board : List (Coord × Hex)) (c : Coord) (hx : Hex), (c, hx) ∈ board →
      (∀ ck ∈ cks, ck.1 ≠ c) → (c, hx) ∈ cks.foldl applyStep board := by
  induction cks with
  | nil =>
    intro board c hx hmem _
    simpa using hmem
  | cons a rest ih =>
    intro board c hx hmem hnone
    rw [List.foldl_cons]
    refine ih _ c hx ?_ (fun ck hck => hnone ck (List.mem_cons_of_mem _ hck))
    have hane : ¬c = a.1 := fun h => hnone a (List.mem_cons_self _ _) h.symm
    unfold applyStep
    refine List.mem_map.mpr ⟨(c, hx), hmem, ?_⟩
    simp only [if_neg hane]

theorem applyFold_clicked (cks : List (Coord × Hex)) :
    ∀ (board : List (Coord × Hex)) (c : Coord) (hx k : Hex),
      (c, hx) ∈ board → alookup cks c = some k → (cks.map Prod.fst).Nodup →
      (c, { hx with color := k.color }) ∈ cks.foldl applyStep board := by
  induction cks with
  | nil =>
    intro board c hx k _ hlk _
    cases hlk
  | cons a rest ih =>
    intro board c hx k hmem hlk hnd
    rw [List.map_cons, List.nodup_cons] at hnd
    rw [List.foldl_cons]
    by_cases hac : a.1 = c
    · have hk : k = a.2 := by
        unfold alookup at hlk
        rw [List.find?_cons_of_pos _ (by simp [hac])] at hlk
        simpa using hlk.symm
      have hstep : (c, { hx with color := k.color }) ∈ applyStep board a := by
        unfold applyStep
        refine List.mem_map.mpr ⟨(c, hx), hmem, ?_⟩
        simp only [if_pos hac.symm, hk]
      refine applyFold_not_clicked rest _ c _ hstep ?_
      intro ck hck hcke
      exact hnd.1 (List.mem_map.mpr ⟨ck, hck, by rw [hcke, hac]⟩)
    · have hlk2 : alookup rest c = some k := by
        unfold alookup at hlk ⊢
        rw [List.find?_cons_of_neg _ (by simp [hac])] at hlk
        exact hlk
      have hmem2 : (c, hx) ∈ applyStep board a := by
        unfold applyStep
        refine List.mem_map.mpr ⟨(c, hx), hmem, ?_⟩
        simp only [if_neg (show ¬c = a.1 from fun h => hac h.symm)]
      exact ih _ c hx k hmem2 hlk2 hnd.2

/-- C10: committing the overlay empties it, so subsequent lookups read
the authoritative map; every authoritative entry whose coordinate is not
in the overlay is completely unchanged; and every overlay-marked entry
keeps its clue value and contiguity flag, only its color becoming the
overlay color. -/
theorem C10_apply_clicked_frame (b : BoardState)
    (hnd : (b.clicked.map Prod.fst).Nodup) :
    (applyClicked b).clicked = []
    ∧ (∀ c : Coord, boardGet (applyClicked b) c = alookup (applyClicked b).board c)
    ∧ (∀ (c : Coord) (hx : Hex), (c, hx) ∈ b.board → alookup b.clicked c = none →
        (c, hx) ∈ (applyClicked b).board)
    ∧ (∀ (c : Coord) (hx k : Hex), (c, hx) ∈ b.board → alookup b.clicked c = some k →
        ∃ hx2 : Hex, (c, hx2) ∈ (applyClicked b).board ∧ hx2.value = hx.value
          ∧ hx2.is_contiguous = hx.is_contiguous ∧ hx2.color = k.color) := by
  refine ⟨rfl, fun c => rfl, ?_, ?_⟩
  · intro c hx hmem hlk
    refine applyFold_not_clicked b.clicked b.board c hx hmem ?_
    intro ck hck hcke
    cases hf : List.find? (fun p => decide (p.1 = c)) b.clicked with
    | some q =>
      unfold alookup at hlk
      rw [hf] at hlk
      cases hlk
    | none =>
      have hq := List.find?_eq_none.mp hf ck hck
      simp [hcke] at hq
  · intro c hx k hmem hlk
    exact ⟨{ hx with color := k.color },
      applyFold_clicked b.clicked b.board c hx k hmem hlk hnd, rfl, rfl, rfl⟩

/-- Witness board for C10: two authoritative cells; the first one is
also marked blue on the overlay. -/
def c10Board : BoardState :=
  ⟨[(((0 : Int), (0 : Int), (0 : Int)), ⟨some 3, some true, Color.yellow⟩),
    (((1 : Int), (-1 : Int), (0 : Int)), ⟨none, none, Color.yellow⟩)],
   [(((0 : Int), (0 : Int), (0 : Int)), ⟨some 3, some true, Color.blue⟩)]⟩

/-- Witness for C10 on c10Board: the overlay is emptied, the unmarked
cell is untouched, and the marked cell keeps its clue value and
contiguity flag while taking the overlay color. -/
theorem C10_apply_clicked_frame_witness :
    (applyClicked c10Board).clicked = []
    ∧ (((1 : Int), (-1 : Int), (0 : Int)), (⟨none, none, Color.yellow⟩ : Hex))
        ∈ (applyClicked c10Board).board
    ∧ ∃ hx2 : Hex, (((0 : Int), (0 : Int), (0 : Int)), hx2) ∈ (applyClicked c10Board).board
        ∧ hx2.value = (⟨some 3, some true, Color.yellow⟩ : Hex).value
        ∧ hx2.is_contiguous = (⟨some 3, some true, Color.yellow⟩ : Hex).is_contiguous
        ∧ hx2.color = (⟨some 3, some true, Color.blue⟩ : Hex).color := by
  have h := C10_apply_clicked_frame c10Board (by decide)
  exact ⟨h.1,
    h.2.2.1 ((1 : Int), (-1 : Int), (0 : Int)) ⟨none, none, Color.yellow⟩
      (by decide) (by decide),
    h.2.2.2 ((0 : Int), (0 : Int), (0 : Int)) ⟨some 3, some true, Color.yellow⟩
      ⟨some 3, some true, Color.blue⟩ (by decide) (by decide)⟩

end Hexcells
